import Mathlib

/-!
Verification of the tulip-room availability engine (`src/proxy/app.py`).

Instants are modelled as `Int` (seconds of the day); a calendar occurrence is
an `Interval` with a `start` and an `end` (named `stop` here because `end` is
a Lean keyword).  The functions `mergeMeetings`, `checkRoomStatus`,
`refreshRecord` and `get_room` are shallow embeddings of the Python functions
`merge_meetings`, `check_room_status`, the body of the per-room refresh loop
in `update_availability`, and `get_room` respectively.
-/

namespace TulipRoom

/-- One calendar occurrence: `{start, end}`.  `stop` models the Python
column `end`. -/
structure Interval where
  start : Int
  stop : Int
deriving DecidableEq, Repr

/-- The comparison used by `df.sort(COL_START)`: ascending by `start`. -/
def leStart (a b : Interval) : Bool := decide (a.start ≤ b.start)

/-- `df.sort(COL_START)`: a stable sort of the rows by `start` ascending. -/
def sortByStart (df : List Interval) : List Interval := df.mergeSort leStart

/-- The sweep loop of `merge_meetings`: iterates over the (sorted) rows with
accumulator `(cs, ce)`; a row whose `start` is `≤ ce` fuses into the
accumulator (`ce := max ce row.end`), otherwise the accumulator is flushed
and reseeded from the row; the final accumulator is flushed unconditionally. -/
def mergeLoop (cs ce : Int) : List Interval → List Interval
  | [] => [⟨cs, ce⟩]
  | r :: rs =>
    if r.start ≤ ce then mergeLoop cs (max ce r.stop) rs
    else ⟨cs, ce⟩ :: mergeLoop r.start r.stop rs

/-- `merge_meetings(df)`: empty input is returned as is; otherwise the rows
are sorted by `start` and swept with the accumulator seeded from row 0
(the Python loop also visits row 0, which fuses trivially). -/
def mergeMeetings (df : List Interval) : List Interval :=
  match sortByStart df with
  | [] => []
  | r0 :: rest => mergeLoop r0.start r0.stop (r0 :: rest)

/-- Membership of an instant in the union of a list of (half-open)
intervals. -/
def memUnion (l : List Interval) (t : Int) : Prop :=
  ∃ iv ∈ l, iv.start ≤ t ∧ t < iv.stop

/-- Two-digit decimal rendering, as `%H` / `%M` produce. -/
def pad2 (n : Nat) : String := if n < 10 then "0" ++ toString n else toString n

/-- `f"{t:%H:%M}"` on an instant measured in seconds of the day. -/
def fmtHM (t : Int) : String :=
  pad2 (t.toNat / 3600 % 24) ++ ":" ++ pad2 (t.toNat % 3600 / 60)

/-- The row mask `(_df["start"] <= _now) & (_df["end"] > _now)`. -/
def activeFilter (now : Int) (iv : Interval) : Bool :=
  decide (iv.start ≤ now) && decide (iv.stop > now)

/-- The row mask `_df["end"] > _now`. -/
def endsAfter (now : Int) (iv : Interval) : Bool := decide (iv.stop > now)

/-- The row mask `_df["start"] > _now`. -/
def startsAfter (now : Int) (iv : Interval) : Bool := decide (iv.start > now)

/-- `check_room_status(_df, _now)`.  The `none` branch under `is_busy` is
unreachable (whenever the active filter is nonempty so is the end filter;
the Python code would raise formatting `None` there). -/
def checkRoomStatus (df : List Interval) (now : Int) : String × String :=
  if df.isEmpty then ("free", "free for the day")
  else
    let active := df.filter (activeFilter now)
    let isBusy := !active.isEmpty
    if isBusy then
      match ((df.filter (endsAfter now)).map (·.stop)).min? with
      | some t => ("busy", "booked until " ++ fmtHM t)
      | none => ("busy", "booked until None")
    else
      match ((df.filter (startsAfter now)).map (·.start)).min? with
      | some t => ("free", "free until " ++ fmtHM t)
      | none => ("free", "free for the day")

/-- The merged-schedule invariant of the data model: every interval is valid
(`start <= end`) and consecutive intervals are strictly disjoint. -/
def MergedOK (df : List Interval) : Prop :=
  (∀ iv ∈ df, iv.start ≤ iv.stop) ∧ df.Chain' (fun a b => a.stop < b.start)

/-- A raw occurrence as built by `get_todays_events`: the `end` column may be
null (`DTEND` absent). -/
structure RawInterval where
  start : Int
  stop : Option Int
deriving DecidableEq, Repr

/-- Sort of the raw rows by `start` ascending. -/
def sortRawByStart (df : List RawInterval) : List RawInterval :=
  df.mergeSort (fun a b => decide (a.start ≤ b.start))

/-- The sweep loop of `merge_meetings` on raw rows.  A comparison of an
instant against a null `end` (`row.start <= current_end` with
`current_end = None`, or `max(current_end, row.end)` with `row.end = None`)
raises a `TypeError` in Python, modelled as `Except.error`. -/
def mergeLoopOpt (cs : Int) (ce : Option Int) :
    List RawInterval → Except String (List RawInterval)
  | [] => .ok [⟨cs, ce⟩]
  | r :: rs =>
    match ce with
    | none => .error "TypeError"
    | some c =>
      if r.start ≤ c then
        match r.stop with
        | none => .error "TypeError"
        | some re => mergeLoopOpt cs (some (max c re)) rs
      else (mergeLoopOpt r.start r.stop rs).map (fun tl => ⟨cs, some c⟩ :: tl)

/-- `merge_meetings` on raw rows whose `end` may be null. -/
def mergeMeetingsOpt (df : List RawInterval) : Except String (List RawInterval) :=
  match sortRawByStart df with
  | [] => .ok []
  | r0 :: rest => mergeLoopOpt r0.start r0.stop (r0 :: rest)

/-- Python string slicing `s[:n]`: the first `n` characters. -/
def strTake (s : String) (n : Nat) : String := ⟨s.data.take n⟩

/-- The per-room body of `update_availability`: the fetch/merge/evaluate
pipeline either yields a `(free_busy, message)` pair or raises, and the
`try`/`except` turns either outcome into the record written to
`availability[mac_address]`. -/
def refreshRecord (name : String) (outcome : Except String (String × String)) :
    String :=
  match outcome with
  | .ok (fb, msg) => name ++ "\n" ++ fb ++ "\n" ++ msg ++ "\n"
  | .error e => name ++ "\n" ++ "error" ++ "\n" ++ strTake e 30 ++ "\n"

/-- Python `str.upper()` on the ASCII identifiers used as lookup keys,
character by character (`Char.toUpper` is the ASCII uppercase map). -/
def upperStr (s : String) : String := ⟨s.data.map Char.toUpper⟩

/-- The sentinel record returned for an unknown room. -/
def unknownRoom : String := "Unknown Room\nfree\nNo data available\n"

/-- `get_room(mac_address)`: `availability.get(mac_address.upper(), sentinel)`,
with the store abstracted as a partial map from identifier to record. -/
def get_room (avail : String → Option String) (mac : String) : String :=
  (avail (upperStr mac)).getD unknownRoom

/-- An example (empty) availability store, used to instantiate lookups. -/
def availEx : String → Option String := fun _ => none

/-! ## Helper lemmas about the sort step -/

theorem sortByStart_perm (df : List Interval) : List.Perm (sortByStart df) df :=
  List.mergeSort_perm df leStart

theorem sortByStart_pairwise_bool (df : List Interval) :
    (sortByStart df).Pairwise (fun a b => leStart a b = true) := by
  apply List.sorted_mergeSort
  · intro a b c hab hbc
    simp only [leStart, decide_eq_true_eq] at *
    exact le_trans hab hbc
  · intro a b
    simp only [leStart, Bool.or_eq_true, decide_eq_true_eq]
    exact le_total a.start b.start

theorem sortByStart_pairwise (df : List Interval) :
    (sortByStart df).Pairwise (fun a b => a.start ≤ b.start) := by
  refine (sortByStart_pairwise_bool df).imp ?_
  intro a b h
  simpa [leStart] using h

theorem mergeMeetings_nil_case (l : List Interval) (hs : sortByStart l = []) :
    mergeMeetings l = [] := by
  unfold mergeMeetings
  rw [hs]

theorem mergeMeetings_cons_case (l : List Interval) (r0 : Interval)
    (rest : List Interval) (hs : sortByStart l = r0 :: rest) :
    mergeMeetings l = mergeLoop r0.start r0.stop (r0 :: rest) := by
  unfold mergeMeetings
  rw [hs]

/-! ## Coverage of the merge (claim C1) -/

theorem memUnion_cons (iv : Interval) (l : List Interval) (t : Int) :
    memUnion (iv :: l) t ↔ (iv.start ≤ t ∧ t < iv.stop) ∨ memUnion l t := by
  simp [memUnion, List.mem_cons, or_and_right, exists_or]

theorem memUnion_perm {l₁ l₂ : List Interval} (h : List.Perm l₁ l₂) (t : Int) :
    memUnion l₁ t ↔ memUnion l₂ t := by
  unfold memUnion
  constructor <;> rintro ⟨iv, hm, hc⟩
  · exact ⟨iv, h.mem_iff.mp hm, hc⟩
  · exact ⟨iv, h.mem_iff.mpr hm, hc⟩

theorem mergeLoop_union (rows : List Interval) : ∀ (cs ce t : Int),
    (∀ r ∈ rows, cs ≤ r.start) →
    rows.Pairwise (fun a b => a.start ≤ b.start) →
    (memUnion (mergeLoop cs ce rows) t ↔ (cs ≤ t ∧ t < ce) ∨ memUnion rows t) := by
  induction rows with
  | nil =>
    intro cs ce t _ _
    simp [mergeLoop, memUnion]
  | cons r rs ih =>
    intro cs ce t hcs hpw
    rw [List.pairwise_cons] at hpw
    have hr : cs ≤ r.start := hcs r (List.mem_cons_self r rs)
    show memUnion (if r.start ≤ ce then mergeLoop cs (max ce r.stop) rs
        else ⟨cs, ce⟩ :: mergeLoop r.start r.stop rs) t ↔ _
    by_cases hg : r.start ≤ ce
    · rw [if_pos hg]
      rw [ih cs (max ce r.stop) t (fun r' h' => hcs r' (List.mem_cons_of_mem r h'))
        hpw.2]
      have key : (cs ≤ t ∧ t < max ce r.stop) ↔
          (cs ≤ t ∧ t < ce) ∨ (r.start ≤ t ∧ t < r.stop) := by
        rcases max_cases ce r.stop with ⟨hm, hcmp⟩ | ⟨hm, hcmp⟩ <;> rw [hm] <;> omega
      rw [memUnion_cons, key]
      tauto
    · rw [if_neg hg]
      rw [memUnion_cons, ih r.start r.stop t (fun r' h' => hpw.1 r' h') hpw.2,
        memUnion_cons]

/-- Claim C1: for every input list of intervals with `start <= end` and ends
present, the union of the intervals returned by `merge_meetings` equals the
union of the input intervals, and the empty input yields an empty schedule. -/
theorem merge_meetings_coverage (l : List Interval)
    (_hv : ∀ iv ∈ l, iv.start ≤ iv.stop) :
    (∀ t, memUnion (mergeMeetings l) t ↔ memUnion l t)
    ∧ mergeMeetings [] = [] := by
  refine ⟨?_, by simp [mergeMeetings, sortByStart]⟩
  intro t
  cases hs : sortByStart l with
  | nil =>
    have hp := sortByStart_perm l
    rw [hs] at hp
    have hl : l = [] := hp.symm.eq_nil
    rw [mergeMeetings_nil_case l hs, hl]
  | cons r0 rest =>
    have hpw := sortByStart_pairwise l
    rw [hs] at hpw
    have hp := sortByStart_perm l
    rw [hs] at hp
    have hcs : ∀ r ∈ r0 :: rest, r0.start ≤ r.start := by
      intro r hr
      rcases List.mem_cons.mp hr with rfl | hmem
      · exact le_refl _
      · exact (List.pairwise_cons.mp hpw).1 r hmem
    rw [mergeMeetings_cons_case l r0 rest hs,
      mergeLoop_union (r0 :: rest) r0.start r0.stop t hcs hpw,
      ← memUnion_perm hp t, memUnion_cons]
    tauto

theorem merge_meetings_coverage_witness :
    (∀ iv ∈ [(⟨0, 2⟩ : Interval), ⟨1, 3⟩, ⟨3, 4⟩], iv.start ≤ iv.stop)
    ∧ ((∀ t, memUnion (mergeMeetings [(⟨0, 2⟩ : Interval), ⟨1, 3⟩, ⟨3, 4⟩]) t
          ↔ memUnion [(⟨0, 2⟩ : Interval), ⟨1, 3⟩, ⟨3, 4⟩] t)
        ∧ mergeMeetings [] = []) :=
  ⟨by decide, merge_meetings_coverage _ (by decide)⟩

/-! ## Disjointness, validity and idempotence of the merge (C2, C10, C4) -/

theorem mergeLoop_valid (rows : List Interval) : ∀ (cs ce : Int),
    cs ≤ ce → (∀ r ∈ rows, r.start ≤ r.stop) →
    ∀ iv ∈ mergeLoop cs ce rows, iv.start ≤ iv.stop := by
  induction rows with
  | nil =>
    intro cs ce hcs _ iv hm
    simp only [mergeLoop, List.mem_singleton] at hm
    subst hm
    exact hcs
  | cons r rs ih =>
    intro cs ce hcs hv iv hm
    rw [show mergeLoop cs ce (r :: rs) = (if r.start ≤ ce
        then mergeLoop cs (max ce r.stop) rs
        else ⟨cs, ce⟩ :: mergeLoop r.start r.stop rs) from rfl] at hm
    by_cases hg : r.start ≤ ce
    · rw [if_pos hg] at hm
      exact ih cs (max ce r.stop) (le_trans hcs (le_max_left _ _))
        (fun r' h' => hv r' (List.mem_cons_of_mem r h')) iv hm
    · rw [if_neg hg] at hm
      rcases List.mem_cons.mp hm with rfl | hm'
      · exact hcs
      · exact ih r.start r.stop (hv r (List.mem_cons_self r rs))
          (fun r' h' => hv r' (List.mem_cons_of_mem r h')) iv hm'

theorem mergeLoop_first (rows : List Interval) : ∀ (cs ce : Int),
    ∃ z tl, mergeLoop cs ce rows = ⟨cs, z⟩ :: tl := by
  induction rows with
  | nil => exact fun cs ce => ⟨ce, [], rfl⟩
  | cons r rs ih =>
    intro cs ce
    show (∃ z tl, (if r.start ≤ ce then mergeLoop cs (max ce r.stop) rs
        else ⟨cs, ce⟩ :: mergeLoop r.start r.stop rs) = ⟨cs, z⟩ :: tl)
    by_cases hg : r.start ≤ ce
    · rw [if_pos hg]
      exact ih cs (max ce r.stop)
    · rw [if_neg hg]
      exact ⟨ce, mergeLoop r.start r.stop rs, rfl⟩

theorem mergeLoop_chain (rows : List Interval) : ∀ (cs ce : Int),
    (mergeLoop cs ce rows).Chain' (fun a b => a.stop < b.start) := by
  induction rows with
  | nil =>
    intro cs ce
    simp [mergeLoop]
  | cons r rs ih =>
    intro cs ce
    show List.Chain' _ (if r.start ≤ ce then mergeLoop cs (max ce r.stop) rs
        else ⟨cs, ce⟩ :: mergeLoop r.start r.stop rs)
    by_cases hg : r.start ≤ ce
    · rw [if_pos hg]
      exact ih cs (max ce r.stop)
    · rw [if_neg hg]
      obtain ⟨z, tl, heq⟩ := mergeLoop_first rs r.start r.stop
      rw [heq]
      rw [List.chain'_cons]
      constructor
      · show ce < r.start
        omega
      · rw [← heq]
        exact ih r.start r.stop

/-- On a list of valid intervals, the strict-disjointness chain implies the
corresponding pairwise statement. -/
theorem chain_disjoint_pairwise : ∀ (l : List Interval),
    (∀ iv ∈ l, iv.start ≤ iv.stop) →
    l.Chain' (fun a b => a.stop < b.start) →
    l.Pairwise (fun a b => a.stop < b.start) := by
  intro l
  induction l with
  | nil => simp
  | cons a rest ih =>
    intro hv hc
    have htail : rest.Chain' (fun a b => a.stop < b.start) := hc.tail
    have hvtail : ∀ iv ∈ rest, iv.start ≤ iv.stop :=
      fun iv h => hv iv (List.mem_cons_of_mem a h)
    rw [List.pairwise_cons]
    refine ⟨?_, ih hvtail htail⟩
    intro b hb
    cases rest with
    | nil => cases hb
    | cons h t =>
      have hah : a.stop < h.start := (List.chain'_cons.mp hc).1
      rcases List.mem_cons.mp hb with rfl | hbt
      · exact hah
      · have hp := ih hvtail htail
        have h1 : h.stop < b.start := (List.pairwise_cons.mp hp).1 b hbt
        have h2 : h.start ≤ h.stop := hvtail h (List.mem_cons_self h t)
        omega

theorem mergeMeetings_valid (l : List Interval)
    (hv : ∀ iv ∈ l, iv.start ≤ iv.stop) :
    ∀ iv ∈ mergeMeetings l, iv.start ≤ iv.stop := by
  cases hs : sortByStart l with
  | nil =>
    rw [mergeMeetings_nil_case l hs]
    simp
  | cons r0 rest =>
    rw [mergeMeetings_cons_case l r0 rest hs]
    have hp := sortByStart_perm l
    rw [hs] at hp
    have hvs : ∀ r ∈ r0 :: rest, r.start ≤ r.stop :=
      fun r h => hv r (hp.mem_iff.mp h)
    exact mergeLoop_valid (r0 :: rest) r0.start r0.stop
      (hvs r0 (List.mem_cons_self r0 rest)) hvs

theorem mergeMeetings_chain (l : List Interval) :
    (mergeMeetings l).Chain' (fun a b => a.stop < b.start) := by
  cases hs : sortByStart l with
  | nil =>
    rw [mergeMeetings_nil_case l hs]
    simp
  | cons r0 rest =>
    rw [mergeMeetings_cons_case l r0 rest hs]
    exact mergeLoop_chain (r0 :: rest) r0.start r0.stop

theorem mergeMeetings_sorted (l : List Interval)
    (hv : ∀ iv ∈ l, iv.start ≤ iv.stop) :
    (mergeMeetings l).Pairwise (fun a b => a.start ≤ b.start) := by
  have hpd := chain_disjoint_pairwise (mergeMeetings l)
    (mergeMeetings_valid l hv) (mergeMeetings_chain l)
  refine List.Pairwise.imp_of_mem ?_ hpd
  intro a b ha _ hab
  have := mergeMeetings_valid l hv a ha
  omega

/-- Claim C2: the output of `merge_meetings` is sorted ascending by `start`
and consecutive output intervals are strictly disjoint (`a.end < b.start`). -/
theorem merge_meetings_disjoint_sorted (l : List Interval)
    (hv : ∀ iv ∈ l, iv.start ≤ iv.stop) :
    (mergeMeetings l).Pairwise (fun a b => a.start ≤ b.start)
    ∧ (mergeMeetings l).Chain' (fun a b => a.stop < b.start) :=
  ⟨mergeMeetings_sorted l hv, mergeMeetings_chain l⟩

theorem merge_meetings_disjoint_sorted_witness :
    (∀ iv ∈ [(⟨1, 3⟩ : Interval), ⟨0, 2⟩, ⟨5, 6⟩], iv.start ≤ iv.stop)
    ∧ ((mergeMeetings [(⟨1, 3⟩ : Interval), ⟨0, 2⟩, ⟨5, 6⟩]).Pairwise
          (fun a b => a.start ≤ b.start)
        ∧ (mergeMeetings [(⟨1, 3⟩ : Interval), ⟨0, 2⟩, ⟨5, 6⟩]).Chain'
          (fun a b => a.stop < b.start)) :=
  ⟨by decide, merge_meetings_disjoint_sorted _ (by decide)⟩

/-- Claim C10: `merge_meetings` preserves interval validity: if every input
interval satisfies `start <= end`, so does every output interval. -/
theorem merge_meetings_preserves_validity (l : List Interval)
    (hv : ∀ iv ∈ l, iv.start ≤ iv.stop) :
    ∀ iv ∈ mergeMeetings l, iv.start ≤ iv.stop :=
  mergeMeetings_valid l hv

theorem merge_meetings_preserves_validity_witness :
    (∀ iv ∈ [(⟨4, 9⟩ : Interval), ⟨0, 5⟩], iv.start ≤ iv.stop)
    ∧ (∀ iv ∈ mergeMeetings [(⟨4, 9⟩ : Interval), ⟨0, 5⟩], iv.start ≤ iv.stop) :=
  ⟨by decide, merge_meetings_preserves_validity _ (by decide)⟩

/-- On a schedule that is already strictly disjoint, the sweep loop flushes
every row unchanged. -/
theorem mergeLoop_of_chain : ∀ (rows : List Interval) (cs ce : Int),
    (⟨cs, ce⟩ :: rows : List Interval).Chain' (fun a b => a.stop < b.start) →
    mergeLoop cs ce rows = ⟨cs, ce⟩ :: rows := by
  intro rows
  induction rows with
  | nil => intro cs ce _; rfl
  | cons r rs ih =>
    intro cs ce h
    have h1 : ce < r.start := (List.chain'_cons.mp h).1
    have h2 : (r :: rs).Chain' (fun a b => a.stop < b.start) :=
      (List.chain'_cons.mp h).2
    show (if r.start ≤ ce then mergeLoop cs (max ce r.stop) rs
        else ⟨cs, ce⟩ :: mergeLoop r.start r.stop rs) = _
    rw [if_neg (by omega)]
    rw [ih r.start r.stop h2]

theorem mergeMeetings_sort_self (l : List Interval)
    (hv : ∀ iv ∈ l, iv.start ≤ iv.stop) :
    sortByStart (mergeMeetings l) = mergeMeetings l := by
  apply List.mergeSort_of_sorted
  refine (mergeMeetings_sorted l hv).imp ?_
  intro a b h
  simpa [leStart] using h

/-- Claim C4: `merge_meetings` is idempotent on valid inputs:
`merge(merge(S)) == merge(S)`. -/
theorem merge_meetings_idempotent (l : List Interval)
    (hv : ∀ iv ∈ l, iv.start ≤ iv.stop) :
    mergeMeetings (mergeMeetings l) = mergeMeetings l := by
  have hsort := mergeMeetings_sort_self l hv
  have hval := mergeMeetings_valid l hv
  have hchain := mergeMeetings_chain l
  cases ho : mergeMeetings l with
  | nil => exact mergeMeetings_nil_case [] (by simp [sortByStart])
  | cons r0 rest =>
    rw [ho] at hsort hchain
    rw [mergeMeetings_cons_case (r0 :: rest) r0 rest hsort]
    have hv0 : r0.start ≤ r0.stop := by
      refine hval r0 ?_
      rw [ho]
      exact List.mem_cons_self r0 rest
    show (if r0.start ≤ r0.stop then mergeLoop r0.start (max r0.stop r0.stop) rest
        else ⟨r0.start, r0.stop⟩ :: mergeLoop r0.start r0.stop rest) = r0 :: rest
    rw [if_pos hv0, max_self]
    exact mergeLoop_of_chain rest r0.start r0.stop hchain

theorem merge_meetings_idempotent_witness :
    (∀ iv ∈ [(⟨0, 2⟩ : Interval), ⟨2, 5⟩, ⟨7, 8⟩], iv.start ≤ iv.stop)
    ∧ mergeMeetings (mergeMeetings [(⟨0, 2⟩ : Interval), ⟨2, 5⟩, ⟨7, 8⟩])
        = mergeMeetings [(⟨0, 2⟩ : Interval), ⟨2, 5⟩, ⟨7, 8⟩] :=
  ⟨by decide, merge_meetings_idempotent _ (by decide)⟩

/-! ## Evaluating the status (C3, C5, C8) -/

theorem checkRoomStatus_busy_case (df : List Interval) (now t : Int)
    (hne : df ≠ [])
    (hb : df.filter (activeFilter now) ≠ [])
    (hmin : ((df.filter (endsAfter now)).map (·.stop)).min? = some t) :
    checkRoomStatus df now = ("busy", "booked until " ++ fmtHM t) := by
  have hne' : ¬(df.isEmpty = true) := by simp [hne]
  have hb' : (!(df.filter (activeFilter now)).isEmpty) = true := by simp [hb]
  simp only [checkRoomStatus]
  rw [if_neg hne', if_pos hb', hmin]

theorem checkRoomStatus_free_until_case (df : List Interval) (now t : Int)
    (hne : df ≠ [])
    (hb : df.filter (activeFilter now) = [])
    (hmin : ((df.filter (startsAfter now)).map (·.start)).min? = some t) :
    checkRoomStatus df now = ("free", "free until " ++ fmtHM t) := by
  have hne' : ¬(df.isEmpty = true) := by simp [hne]
  have hb' : ¬((!(df.filter (activeFilter now)).isEmpty) = true) := by simp [hb]
  simp only [checkRoomStatus]
  rw [if_neg hne', if_neg hb', hmin]

theorem checkRoomStatus_free_day_case (df : List Interval) (now : Int)
    (hne : df ≠ [])
    (hb : df.filter (activeFilter now) = [])
    (hmin : ((df.filter (startsAfter now)).map (·.start)).min? = none) :
    checkRoomStatus df now = ("free", "free for the day") := by
  have hne' : ¬(df.isEmpty = true) := by simp [hne]
  have hb' : ¬((!(df.filter (activeFilter now)).isEmpty) = true) := by simp [hb]
  simp only [checkRoomStatus]
  rw [if_neg hne', if_neg hb', hmin]

theorem active_filter_iff (df : List Interval) (now : Int) :
    df.filter (activeFilter now) ≠ [] ↔ ∃ iv ∈ df, iv.start ≤ now ∧ now < iv.stop := by
  rw [ne_eq, List.filter_eq_nil_iff]
  push_neg
  simp [activeFilter]

/-- Claim C3: `check_room_status` reports busy iff some interval `i` in the
schedule satisfies `i.start <= now < i.end`; in particular the schedule
`[{10:00, 11:00}]` is free at `11:00` and busy at `10:59:59`. -/
theorem check_room_status_busy_iff (df : List Interval) (now : Int) :
    ((checkRoomStatus df now).1 = "busy"
      ↔ ∃ iv ∈ df, iv.start ≤ now ∧ now < iv.stop)
    ∧ (checkRoomStatus [⟨36000, 39600⟩] 39600).1 = "free"
    ∧ (checkRoomStatus [⟨36000, 39600⟩] 39599).1 = "busy" := by
  refine ⟨?_, by decide, by decide⟩
  rw [← active_filter_iff df now]
  rcases eq_or_ne df [] with rfl | hne
  · rw [show checkRoomStatus [] now = ("free", "free for the day") from rfl]
    simp
  · by_cases hf : df.filter (activeFilter now) = []
    · have hfree : (checkRoomStatus df now).1 = "free" := by
        cases hmin : ((df.filter (startsAfter now)).map (·.start)).min? with
        | none => rw [checkRoomStatus_free_day_case df now hne hf hmin]
        | some t => rw [checkRoomStatus_free_until_case df now t hne hf hmin]
      rw [hfree]
      simp [hf]
    · have hends : df.filter (endsAfter now) ≠ [] := by
        obtain ⟨iv, hiv⟩ := List.exists_mem_of_ne_nil _ hf
        have h1 := List.mem_filter.mp hiv
        refine List.ne_nil_of_mem (a := iv) ?_
        rw [List.mem_filter]
        refine ⟨h1.1, ?_⟩
        have := h1.2
        simp only [activeFilter, Bool.and_eq_true] at this
        exact this.2
      have hmapne : (df.filter (endsAfter now)).map (·.stop) ≠ [] := by
        simpa using hends
      cases hmin : ((df.filter (endsAfter now)).map (·.stop)).min? with
      | none => exact absurd (List.min?_eq_none_iff.mp hmin) hmapne
      | some t =>
        rw [checkRoomStatus_busy_case df now t hne hf hmin]
        simp [hf]

theorem foldl_min_eq (xs : List Int) : ∀ (x : Int),
    (∀ b ∈ xs, x ≤ b) → xs.foldl min x = x := by
  induction xs with
  | nil => intro x _; rfl
  | cons y ys ih =>
    intro x h
    show ys.foldl min (min x y) = x
    rw [min_eq_left (h y (List.mem_cons_self y ys))]
    exact ih x (fun b hb => h b (List.mem_cons_of_mem y hb))

theorem min?_of_pairwise_le (xs : List Int) (h : xs.Pairwise (· ≤ ·)) :
    xs.min? = xs.head? := by
  cases xs with
  | nil => rfl
  | cons x ys =>
    rw [List.min?_cons']
    rw [List.pairwise_cons] at h
    rw [foldl_min_eq ys x h.1]
    rfl

/-- When the projection `f` is monotone along the list, the polars `.min()`
of the filtered column is the projection of the first matching row. -/
theorem min?_filter_map (f : Interval → Int) (p : Interval → Bool)
    (df : List Interval) (hpw : df.Pairwise (fun a b => f a ≤ f b)) :
    ((df.filter p).map f).min? = (df.find? p).map f := by
  rw [min?_of_pairwise_le]
  · rw [List.head?_map, List.filter_head?]
  · rw [List.pairwise_map]
    exact List.Pairwise.sublist (List.filter_sublist df) hpw

theorem mergedOK_pairwise_stop (df : List Interval) (h : MergedOK df) :
    df.Pairwise (fun a b => a.stop ≤ b.stop) := by
  have hp := chain_disjoint_pairwise df h.1 h.2
  refine List.Pairwise.imp_of_mem ?_ hp
  intro a b _ hb hab
  have := h.1 b hb
  omega

theorem mergedOK_pairwise_start (df : List Interval) (h : MergedOK df) :
    df.Pairwise (fun a b => a.start ≤ b.start) := by
  have hp := chain_disjoint_pairwise df h.1 h.2
  refine List.Pairwise.imp_of_mem ?_ hp
  intro a b ha _ hab
  have := h.1 a ha
  omega

/-- Claim C5: on a merged schedule, the detail is `"booked until {end}"` of
the earliest interval whose end exceeds `now` when busy, `"free until
{start}"` of the earliest interval starting after `now` when free and one
exists, and `"free for the day"` otherwise. -/
theorem check_room_status_detail (df : List Interval) (now : Int)
    (h : MergedOK df) :
    (∀ iv, (∃ j ∈ df, j.start ≤ now ∧ now < j.stop) →
      df.find? (endsAfter now) = some iv →
      checkRoomStatus df now = ("busy", "booked until " ++ fmtHM iv.stop))
    ∧ (¬(∃ j ∈ df, j.start ≤ now ∧ now < j.stop) →
      ∀ iv, df.find? (startsAfter now) = some iv →
      checkRoomStatus df now = ("free", "free until " ++ fmtHM iv.start))
    ∧ (¬(∃ j ∈ df, j.start ≤ now ∧ now < j.stop) →
      df.find? (startsAfter now) = none →
      checkRoomStatus df now = ("free", "free for the day")) := by
  have hminE : ((df.filter (endsAfter now)).map (·.stop)).min?
      = (df.find? (endsAfter now)).map (·.stop) :=
    min?_filter_map _ _ df (mergedOK_pairwise_stop df h)
  have hminS : ((df.filter (startsAfter now)).map (·.start)).min?
      = (df.find? (startsAfter now)).map (·.start) :=
    min?_filter_map _ _ df (mergedOK_pairwise_start df h)
  refine ⟨?_, ?_, ?_⟩
  · intro iv hbusy hfind
    obtain ⟨j, hj, _⟩ := hbusy
    have hne : df ≠ [] := List.ne_nil_of_mem hj
    have hb : df.filter (activeFilter now) ≠ [] :=
      (active_filter_iff df now).mpr ⟨j, hj, by assumption⟩
    apply checkRoomStatus_busy_case df now iv.stop hne hb
    rw [hminE, hfind]
    rfl
  · intro hfree iv hfind
    have hne : df ≠ [] :=
      List.ne_nil_of_mem (List.mem_of_find?_eq_some hfind)
    have hb : df.filter (activeFilter now) = [] := by
      by_contra hc
      exact hfree ((active_filter_iff df now).mp hc)
    apply checkRoomStatus_free_until_case df now iv.start hne hb
    rw [hminS, hfind]
    rfl
  · intro hfree hfind
    rcases eq_or_ne df [] with rfl | hne
    · rfl
    · have hb : df.filter (activeFilter now) = [] := by
        by_contra hc
        exact hfree ((active_filter_iff df now).mp hc)
      apply checkRoomStatus_free_day_case df now hne hb
      rw [hminS, hfind]
      rfl

theorem check_room_status_detail_witness :
    MergedOK [(⟨32400, 34200⟩ : Interval), ⟨36000, 39600⟩]
    ∧ ((∀ iv, (∃ j ∈ [(⟨32400, 34200⟩ : Interval), ⟨36000, 39600⟩],
          j.start ≤ (33000 : Int) ∧ (33000 : Int) < j.stop) →
        List.find? (endsAfter 33000) [(⟨32400, 34200⟩ : Interval), ⟨36000, 39600⟩] = some iv →
        checkRoomStatus [(⟨32400, 34200⟩ : Interval), ⟨36000, 39600⟩] 33000
          = ("busy", "booked until " ++ fmtHM iv.stop))
      ∧ (¬(∃ j ∈ [(⟨32400, 34200⟩ : Interval), ⟨36000, 39600⟩],
          j.start ≤ (33000 : Int) ∧ (33000 : Int) < j.stop) →
        ∀ iv, List.find? (startsAfter 33000) [(⟨32400, 34200⟩ : Interval), ⟨36000, 39600⟩] = some iv →
        checkRoomStatus [(⟨32400, 34200⟩ : Interval), ⟨36000, 39600⟩] 33000
          = ("free", "free until " ++ fmtHM iv.start))
      ∧ (¬(∃ j ∈ [(⟨32400, 34200⟩ : Interval), ⟨36000, 39600⟩],
          j.start ≤ (33000 : Int) ∧ (33000 : Int) < j.stop) →
        List.find? (startsAfter 33000) [(⟨32400, 34200⟩ : Interval), ⟨36000, 39600⟩] = none →
        checkRoomStatus [(⟨32400, 34200⟩ : Interval), ⟨36000, 39600⟩] 33000
          = ("free", "free for the day"))) :=
  ⟨⟨by decide, List.chain'_pair.mpr (by decide)⟩,
    check_room_status_detail _ 33000 ⟨by decide, List.chain'_pair.mpr (by decide)⟩⟩

/-- Claim C8 counterexample: for the schedule `[{10:00,11:00},{10:00,12:00}]`
(two intervals simultaneously active at `now = 10:05`), the state is busy but
the detail reports the smaller end `11:00`, not the larger end `12:00` as the
claim states. -/
theorem check_room_status_overlap_counterexample :
    ((36000 : Int) ≤ 36300 ∧ (36300 : Int) < 39600)
    ∧ ((36000 : Int) ≤ 36300 ∧ (36300 : Int) < 43200)
    ∧ (checkRoomStatus [⟨36000, 39600⟩, ⟨36000, 43200⟩] 36300).1 = "busy"
    ∧ (checkRoomStatus [⟨36000, 39600⟩, ⟨36000, 43200⟩] 36300).2
        = "booked until " ++ fmtHM 39600
    ∧ ¬((checkRoomStatus [⟨36000, 39600⟩, ⟨36000, 43200⟩] 36300).2
        = "booked until " ++ fmtHM (max 39600 43200)) := by
  refine ⟨by decide, by decide, by decide, by decide, by decide⟩

/-- Claim C8 amended: when two or more intervals are simultaneously active at
`now`, `check_room_status` falls back to busy, and its detail reports the
smallest end among the schedule's intervals whose end exceeds `now`. -/
theorem check_room_status_overlap_min_end (df : List Interval) (now : Int)
    (h : ∃ a ∈ df, ∃ b ∈ df, a ≠ b ∧ (a.start ≤ now ∧ now < a.stop)
      ∧ (b.start ≤ now ∧ now < b.stop)) :
    (checkRoomStatus df now).1 = "busy"
    ∧ ∃ t, (∃ iv ∈ df, now < iv.stop ∧ iv.stop = t)
      ∧ (∀ iv ∈ df, now < iv.stop → t ≤ iv.stop)
      ∧ (checkRoomStatus df now).2 = "booked until " ++ fmtHM t := by
  obtain ⟨a, ha, b, hb, hab, hact_a, hact_b⟩ := h
  have hne : df ≠ [] := List.ne_nil_of_mem ha
  have hbz : df.filter (activeFilter now) ≠ [] :=
    (active_filter_iff df now).mpr ⟨a, ha, hact_a⟩
  have hmem : a ∈ df.filter (endsAfter now) := by
    rw [List.mem_filter]
    refine ⟨ha, ?_⟩
    simp only [endsAfter, decide_eq_true_eq]
    omega
  have hne2 : (df.filter (endsAfter now)).map (·.stop) ≠ [] := by
    simp only [ne_eq, List.map_eq_nil_iff]
    exact List.ne_nil_of_mem hmem
  obtain ⟨t, hmin⟩ : ∃ t, ((df.filter (endsAfter now)).map (·.stop)).min? = some t := by
    cases hm : ((df.filter (endsAfter now)).map (·.stop)).min? with
    | none => exact absurd (List.min?_eq_none_iff.mp hm) hne2
    | some t => exact ⟨t, rfl⟩
  have hch := checkRoomStatus_busy_case df now t hne hbz hmin
  have hanti : Std.Antisymm ((· : Int) ≤ ·) := ⟨fun h1 h2 => le_antisymm h1 h2⟩
  have hprops := (List.min?_eq_some_iff (fun a : Int => le_refl a)
    (fun a b => min_choice a b) (fun a b c => le_min_iff)).mp hmin
  obtain ⟨iv0, hiv0, hiv0t⟩ := List.mem_map.mp hprops.1
  have hiv0df := List.mem_filter.mp hiv0
  refine ⟨by rw [hch], t, ⟨iv0, hiv0df.1, ?_, hiv0t⟩, ?_, by rw [hch]⟩
  · have := hiv0df.2
    simp only [endsAfter, decide_eq_true_eq] at this
    omega
  · intro iv hiv hlt
    refine hprops.2 iv.stop (List.mem_map.mpr ⟨iv, ?_, rfl⟩)
    rw [List.mem_filter]
    refine ⟨hiv, ?_⟩
    simp only [endsAfter, decide_eq_true_eq]
    omega

theorem check_room_status_overlap_min_end_witness :
    (∃ a ∈ [(⟨36000, 39600⟩ : Interval), ⟨36000, 43200⟩],
      ∃ b ∈ [(⟨36000, 39600⟩ : Interval), ⟨36000, 43200⟩],
      a ≠ b ∧ (a.start ≤ (36300 : Int) ∧ (36300 : Int) < a.stop)
        ∧ (b.start ≤ (36300 : Int) ∧ (36300 : Int) < b.stop))
    ∧ ((checkRoomStatus [(⟨36000, 39600⟩ : Interval), ⟨36000, 43200⟩] 36300).1 = "busy"
      ∧ ∃ t, (∃ iv ∈ [(⟨36000, 39600⟩ : Interval), ⟨36000, 43200⟩],
            (36300 : Int) < iv.stop ∧ iv.stop = t)
        ∧ (∀ iv ∈ [(⟨36000, 39600⟩ : Interval), ⟨36000, 43200⟩],
            (36300 : Int) < iv.stop → t ≤ iv.stop)
        ∧ (checkRoomStatus [(⟨36000, 39600⟩ : Interval), ⟨36000, 43200⟩] 36300).2
            = "booked until " ++ fmtHM t) :=
  ⟨by decide, check_room_status_overlap_min_end _ 36300 (by decide)⟩

/-! ## Failure isolation in the refresh loop (C6) -/

/-- Claim C6: the per-room refresh always produces a three-field status
record, and on any failure of the fetch/merge/evaluate pipeline the record
has state `error` and a detail of at most 30 characters. -/
theorem update_availability_isolation (name : String)
    (outcome : Except String (String × String)) :
    (∃ st det, refreshRecord name outcome
        = name ++ "\n" ++ st ++ "\n" ++ det ++ "\n")
    ∧ (∀ e, outcome = .error e →
        refreshRecord name outcome
          = name ++ "\n" ++ "error" ++ "\n" ++ strTake e 30 ++ "\n"
        ∧ (strTake e 30).length ≤ 30) := by
  constructor
  · cases outcome with
    | ok p =>
      cases p with
      | mk fb msg => exact ⟨fb, msg, rfl⟩
    | error e => exact ⟨"error", strTake e 30, rfl⟩
  · rintro e rfl
    refine ⟨rfl, ?_⟩
    have hlen : (strTake e 30).length = min 30 e.data.length := by
      show (e.data.take 30).length = min 30 e.data.length
      simp
    omega

theorem update_availability_isolation_witness :
    (∃ st det, refreshRecord "Tulip" (.error "connection refused by calendar host")
        = "Tulip" ++ "\n" ++ st ++ "\n" ++ det ++ "\n")
    ∧ (∀ e, (Except.error "connection refused by calendar host"
          : Except String (String × String)) = .error e →
        refreshRecord "Tulip" (.error "connection refused by calendar host")
          = "Tulip" ++ "\n" ++ "error" ++ "\n" ++ strTake e 30 ++ "\n"
        ∧ (strTake e 30).length ≤ 30) :=
  update_availability_isolation "Tulip" (.error "connection refused by calendar host")

/-! ## The availability lookup (C9) -/

theorem char_toNat_ofNat_valid {n : Nat} (h : n.isValidChar) :
    (Char.ofNat n).toNat = n := by
  unfold Char.ofNat
  rw [dif_pos h]
  rfl

theorem char_toUpper_idem (c : Char) : c.toUpper.toUpper = c.toUpper := by
  by_cases h : c.toNat ≥ 97 ∧ c.toNat ≤ 122
  · have h1 : c.toUpper = Char.ofNat (c.toNat - 32) := by
      show (if c.toNat ≥ 97 ∧ c.toNat ≤ 122 then Char.ofNat (c.toNat - 32) else c)
        = Char.ofNat (c.toNat - 32)
      rw [if_pos h]
    have hv : Nat.isValidChar (c.toNat - 32) := Or.inl (by omega)
    have h2 : (Char.ofNat (c.toNat - 32)).toNat = c.toNat - 32 :=
      char_toNat_ofNat_valid hv
    rw [h1]
    show (if (Char.ofNat (c.toNat - 32)).toNat ≥ 97
          ∧ (Char.ofNat (c.toNat - 32)).toNat ≤ 122
        then Char.ofNat ((Char.ofNat (c.toNat - 32)).toNat - 32)
        else Char.ofNat (c.toNat - 32)) = Char.ofNat (c.toNat - 32)
    rw [if_neg]
    rw [h2]
    omega
  · have h1 : c.toUpper = c := by
      show (if c.toNat ≥ 97 ∧ c.toNat ≤ 122 then Char.ofNat (c.toNat - 32) else c) = c
      rw [if_neg h]
    rw [h1, h1]

theorem upperStr_idem (s : String) : upperStr (upperStr s) = upperStr s := by
  unfold upperStr
  have : ∀ l : List Char, (l.map Char.toUpper).map Char.toUpper = l.map Char.toUpper := by
    intro l
    induction l with
    | nil => rfl
    | cons c cs ih => simp [ih, char_toUpper_idem]
  rw [this]

/-- Claim C9: looking up an identifier with no entry yields the sentinel
"unknown room" record (display `Unknown Room`, state `free`, detail
`No data available`) rather than failing, and any identifier resolves like
its uppercased form. -/
theorem get_room_unknown_and_case_insensitive (avail : String → Option String)
    (mac : String) :
    (avail (upperStr mac) = none → get_room avail mac = unknownRoom)
    ∧ get_room avail mac = get_room avail (upperStr mac)
    ∧ unknownRoom
        = "Unknown Room" ++ "\n" ++ "free" ++ "\n" ++ "No data available" ++ "\n" := by
  refine ⟨?_, ?_, by decide⟩
  · intro h
    simp [get_room, h]
  · unfold get_room
    rw [upperStr_idem]

theorem get_room_unknown_and_case_insensitive_witness :
    (availEx (upperStr "b8:27:eb:01:02:03") = none →
      get_room availEx "b8:27:eb:01:02:03" = unknownRoom)
    ∧ get_room availEx "b8:27:eb:01:02:03"
        = get_room availEx (upperStr "b8:27:eb:01:02:03")
    ∧ unknownRoom
        = "Unknown Room" ++ "\n" ++ "free" ++ "\n" ++ "No data available" ++ "\n" :=
  get_room_unknown_and_case_insensitive availEx "b8:27:eb:01:02:03"

/-! ## Missing `end` values (C7) -/

/-- Claim C7 counterexample: a single occurrence with no `end` does not merge
to a zero-duration point; `merge_meetings` fails (Python raises a `TypeError`
comparing the start against `None`). -/
theorem merge_none_end_counterexample :
    mergeMeetingsOpt [⟨0, none⟩] = .error "TypeError" := by
  unfold mergeMeetingsOpt sortRawByStart
  rw [List.mergeSort_singleton]
  rfl

/-- Claim C7 amended: `merge_meetings` does not treat a missing `end` as a
zero-duration point; whenever the earliest row of the start-sorted input has
no `end`, it fails with a `TypeError` instead of returning a schedule. -/
theorem merge_none_end_fails (l : List RawInterval) (r0 : RawInterval)
    (rest : List RawInterval) (hs : sortRawByStart l = r0 :: rest)
    (hnone : r0.stop = none) :
    mergeMeetingsOpt l = .error "TypeError" := by
  unfold mergeMeetingsOpt
  rw [hs]
  show mergeLoopOpt r0.start r0.stop (r0 :: rest) = .error "TypeError"
  rw [hnone]
  rfl

theorem merge_none_end_fails_witness :
    (sortRawByStart [(⟨3, none⟩ : RawInterval), ⟨5, some 7⟩]
        = [(⟨3, none⟩ : RawInterval), ⟨5, some 7⟩])
    ∧ (⟨3, (none : Option Int)⟩ : RawInterval).stop = none
    ∧ mergeMeetingsOpt [(⟨3, none⟩ : RawInterval), ⟨5, some 7⟩]
        = .error "TypeError" := by
  have hs : sortRawByStart [(⟨3, none⟩ : RawInterval), ⟨5, some 7⟩]
      = [(⟨3, none⟩ : RawInterval), ⟨5, some 7⟩] :=
    List.mergeSort_of_sorted (by decide)
  exact ⟨hs, rfl, merge_none_end_fails _ _ _ hs rfl⟩

end TulipRoom
